import Mathlib

/-!
# Verification of quizbank's fingerprinting / reconciliation core

Shallow embedding of the question fingerprinting, text-quality scoring,
best-answer reconciliation and record-merge decision logic of
`src/database/supabase-manager.js`, together with theorems that check the
specification's claims against this embedding.

Modelling conventions:
* JavaScript numbers are modelled as `ℚ` (the code only adds, divides,
  clamps and compares; no float rounding is relevant to the claims).
* Nullable JavaScript values are modelled as `Option`; JS truthiness of a
  number is "non-null and nonzero", of a boolean "non-null and true".
* JS strings are Lean `String`s; `charCodeAt` iterates UTF-16 code units,
  which we compute from the code points.  `toLowerCase` is modelled on the
  ASCII range, which is exhaustive for the inputs reachable after the
  code's own `[^\w\s?.!]` stripping and for all concrete inputs used here.
* A thrown `TypeError` (property access on `undefined`/`null`) is
  modelled with `Except`.
-/

namespace QuizBank

/-- A JavaScript runtime error signalled by the embedded code. -/
inductive JsError where
  | typeError
deriving DecidableEq

/-- JS truthiness of a nullable number: `null`/`undefined` and `0` are falsy. -/
def numTruthy : Option ℚ → Bool
  | none => false
  | some x => x ≠ 0

/-- JS truthiness of a nullable boolean: only `true` is truthy. -/
def boolTruthy : Option Bool → Bool
  | none => false
  | some b => b

/-- JS `x || fallback` on a number already known to be non-null. -/
def jsOr (x fallback : ℚ) : ℚ :=
  if x = 0 then fallback else x

/-- JS `x || fallback` on a nullable number. -/
def jsOrOpt (x : Option ℚ) (fallback : ℚ) : ℚ :=
  match x with
  | none => fallback
  | some v => if v = 0 then fallback else v

/-- JS `x || fallback` on an integer-valued field. -/
def jsOrInt (x fallback : ℤ) : ℤ :=
  if x = 0 then fallback else x

/-- JS `ToInt32`: reduce mod `2^32` and reinterpret as a signed 32-bit value. -/
def toInt32 (x : ℤ) : ℤ :=
  let r := x % 4294967296
  if r ≥ 2147483648 then r - 4294967296 else r

/-- UTF-16 code units of one code point (surrogate pair above `U+FFFF`). -/
def utf16Units (c : Char) : List ℕ :=
  if c.toNat < 65536 then [c.toNat]
  else
    let v := c.toNat - 65536
    [55296 + v / 1024, 56320 + v % 1024]

/-- UTF-16 code units of a string, as iterated by JS `charCodeAt`. -/
def strUtf16 (s : String) : List ℕ :=
  s.data.foldr (fun c acc => utf16Units c ++ acc) []

/-- The character class of the JS regex `\s` (ECMAScript WhiteSpace and
line terminators), used by `\s+` normalization and `trim()`. -/
def isJsWhitespace (c : Char) : Bool :=
  let n := c.toNat
  (9 ≤ n && n ≤ 13) || n == 32 || n == 160 || n == 5760 ||
    (8192 ≤ n && n ≤ 8202) || n == 8232 || n == 8233 || n == 8239 ||
    n == 8287 || n == 12288 || n == 65279

/-- The character class of the JS regex `\w`: `[A-Za-z0-9_]`. -/
def isJsWordChar (c : Char) : Bool :=
  let n := c.toNat
  (65 ≤ n && n ≤ 90) || (97 ≤ n && n ≤ 122) || (48 ≤ n && n ≤ 57) || n == 95

/-- `.replace(/\s+/g, ' ')`: collapse each whitespace run to one space.
The boolean flag records whether the previous character was whitespace. -/
def collapseWsAux : Bool → List Char → List Char
  | _, [] => []
  | prevWs, c :: cs =>
    if isJsWhitespace c then
      if prevWs then collapseWsAux true cs
      else ' ' :: collapseWsAux true cs
    else c :: collapseWsAux false cs

/-- `.replace(/\s+/g, ' ')` on a character list. -/
def collapseWs (l : List Char) : List Char :=
  collapseWsAux false l

/-- `toLowerCase()` on one character (ASCII range; see module comment). -/
def jsToLower (c : Char) : Char :=
  if 65 ≤ c.toNat && c.toNat ≤ 90 then Char.ofNat (c.toNat + 32) else c

/-- `trim()`: strip leading and trailing whitespace. -/
def jsTrim (l : List Char) : List Char :=
  ((l.dropWhile isJsWhitespace).reverse.dropWhile isJsWhitespace).reverse

/-- Base-36 digit character, as produced by JS `Number.prototype.toString(36)`. -/
def base36Digit (n : ℕ) : Char :=
  if n < 10 then Char.ofNat (48 + n) else Char.ofNat (87 + n)

/-- Most-significant-first base-36 digits; the first argument is fuel
(one unit per digit suffices, we pass the number itself). -/
def base36Aux : ℕ → ℕ → List Char
  | 0, _ => []
  | fuel + 1, n =>
    if n < 36 then [base36Digit n]
    else base36Aux fuel (n / 36) ++ [base36Digit (n % 36)]

/-- JS `n.toString(36)` for a non-negative integer. -/
def toBase36 (n : ℕ) : String :=
  String.mk (base36Aux (n + 1) n)

/-- `simpleHash` from `supabase-manager.js`: the 32-bit rolling hash
`hash = toInt32((hash << 5) - hash + charCodeAt(i))`, then
`Math.abs(hash).toString(36)`. -/
def simpleHash (str : String) : String :=
  let h := (strUtf16 str).foldl (fun hash c => toInt32 (toInt32 (hash * 32) - hash + (c : ℤ))) 0
  toBase36 h.natAbs

/-- The option normalization inside `generateQuestionHash`:
`opt.toLowerCase().replace(/[^\w\s]/g, '').trim()`. -/
def normalizeOption (opt : String) : String :=
  String.mk (jsTrim (((opt.data.map jsToLower).filter
    (fun c => isJsWordChar c || isJsWhitespace c))))

/-- Boolean lexicographic order on character lists, modelling the string
comparison used by the JS array sort in `generateQuestionHash`. -/
def charListLe : List Char → List Char → Bool
  | [], _ => true
  | _ :: _, [] => false
  | a :: as, b :: bs =>
    if a < b then true
    else if b < a then false
    else charListLe as bs

/-- String comparison for the option sort. -/
def jsStrLe (a b : String) : Bool :=
  charListLe a.data b.data

/-- The sort relation used for the options. -/
def optionLe (a b : String) : Prop :=
  jsStrLe a b = true

instance : DecidableRel optionLe := fun a b => by
  unfold optionLe
  infer_instance

/-- `options.sort()` of `generateQuestionHash` (a deterministic sort by
string comparison; JS's sort and this one agree on the sorted result,
which is the unique sorted permutation). -/
def sortOptions (l : List String) : List String :=
  List.insertionSort optionLe l

/-- `.join('|')` of `generateQuestionHash`. -/
def joinPipe : List String → String
  | [] => ""
  | [x] => x
  | x :: xs => x ++ "|" ++ joinPipe xs

/-- The text normalization of `generateQuestionHash`:
whitespace collapse, `[^\w\s?.!]` strip, lowercase, trim. -/
def cleanQuestionText (questionText : String) : String :=
  String.mk (jsTrim (((collapseWs questionText.data).filter
    (fun c => isJsWordChar c || isJsWhitespace c || c == '?' || c == '.' || c == '!')).map
    jsToLower))

/-- `generateQuestionHash(questionText, questionType, options)` on non-null
text: build `"{type}:{cleanText}"`, append `":" + sortedOptions.join('|')`
when `options` is an array, and hash with `simpleHash`. -/
def generateQuestionHash (questionText questionType : String)
    (options : Option (List String)) : String :=
  let cleanText := cleanQuestionText questionText
  let hashInput := questionType ++ ":" ++ cleanText
  let hashInput :=
    match options with
    | some opts => hashInput ++ ":" ++ joinPipe (sortOptions (opts.map normalizeOption))
    | none => hashInput
  simpleHash hashInput

/-- `generateQuestionHash` as called with a nullable `questionText`:
`undefined.replace` throws a `TypeError` before anything is hashed. -/
def generateQuestionHashJs (questionText : Option String) (questionType : String)
    (options : Option (List String)) : Except JsError String :=
  match questionText with
  | none => .error .typeError
  | some t => .ok (generateQuestionHash t questionType options)

/-- `^Question \d+$`: literally `"Question "` followed by one or more digits. -/
def matchesPlaceholderRegex (s : String) : Bool :=
  let pre := "Question ".data
  let rest := s.data.drop pre.length
  decide (s.data.take pre.length = pre) && !rest.isEmpty && rest.all (fun c => c.isDigit)

/-- `startsWithChars needle hay`: `hay` begins with `needle`. -/
def startsWithChars : List Char → List Char → Bool
  | [], _ => true
  | _ :: _, [] => false
  | a :: as, b :: bs => a == b && startsWithChars as bs

/-- `hay.includes(needle)` on character lists. -/
def hasSubstring : List Char → List Char → Bool
  | hay, needle =>
    match hay with
    | [] => needle.isEmpty
    | _ :: t => startsWithChars needle hay || hasSubstring t needle

/-- `calculateTextQuality(questionText, source)` on non-null text:
base score by provenance, capped length bonus, placeholder penalties,
content bonuses, clamped to be non-negative. -/
def calculateTextQuality (questionText source : String) : ℤ :=
  let score : ℤ := 0
  let score := score +
    (if source = "dom" then 100
     else if source = "canvas_api" then 50
     else if source = "placeholder" then 10
     else 0)
  let lengthScore : ℤ := min ((strUtf16 questionText).length : ℤ) 200
  let score := score + lengthScore
  let score := score + (if matchesPlaceholderRegex questionText then -50 else 0)
  let score := score + (if hasSubstring questionText.data "Question ID".data then -30 else 0)
  let score := score + (if hasSubstring questionText.data "?".data then 20 else 0)
  let score := score + (if (strUtf16 questionText).length > 20 then 10 else 0)
  max 0 score

/-- `calculateTextQuality` as called with a nullable `questionText`:
`undefined.length` throws a `TypeError`. -/
def calculateTextQualityJs (questionText : Option String) (source : String) :
    Except JsError ℤ :=
  match questionText with
  | none => .error .typeError
  | some t => .ok (calculateTextQuality t source)

/-- The fields of a submission that the reconciler's confidence computation
reads (`is_correct`, `points_earned`, `points_possible`), each nullable. -/
structure Submission where
  is_correct : Option Bool
  points_earned : Option ℚ
  points_possible : Option ℚ
deriving DecidableEq

/-- The confidence computation of `updateBestAnswer`:
`confidenceScore = is_correct ? 1.0 : 0.0`, overwritten by
`min(1, points_earned / points_possible)` when `points_earned`,
`points_possible` are truthy and `points_possible > 0`, then clamped
into `[0, 1]`. -/
def updateBestAnswerConfidence (s : Submission) : ℚ :=
  let confidenceScore : ℚ := if boolTruthy s.is_correct then 1 else 0
  let confidenceScore :=
    if numTruthy s.points_earned && numTruthy s.points_possible &&
        decide (0 < s.points_possible.getD 0) then
      min 1 (s.points_earned.getD 0 / s.points_possible.getD 0)
    else confidenceScore
  max 0 (min 1 confidenceScore)

/-- The stored best-answer row as read back by `getBestAnswer`; only its
`confidence_score` participates in the overwrite decision. -/
structure StoredBestAnswer where
  confidence_score : ℚ
deriving DecidableEq

/-- The write decision of `updateBestAnswer`. -/
inductive BestAnswerAction where
  | write (confidence_score : ℚ)
  | noop
deriving DecidableEq

/-- The overwrite rule of `updateBestAnswer`: write when there is no current
best, or when `confidenceScore > (currentBest.confidence_score || 0)`;
otherwise leave the stored record unchanged. -/
def updateBestAnswerAction (currentBest : Option StoredBestAnswer)
    (s : Submission) : BestAnswerAction :=
  let confidenceScore := updateBestAnswerConfidence s
  match currentBest with
  | none => .write confidenceScore
  | some cb =>
    if confidenceScore > jsOr cb.confidence_score 0 then .write confidenceScore
    else .noop

/-- The inline confidence computation of the batch path
(`processCanvasSubmissionsWithQuestionData`):
`correct ? min(1.0, (points || 0) / (points_possible || 1)) : 0`. -/
def inlineConfidence (correct : Option Bool) (points points_possible : Option ℚ) : ℚ :=
  if boolTruthy correct then min 1 (jsOrOpt points 0 / jsOrOpt points_possible 1)
  else 0

/-- One candidate row of `bestAnswersToUpdate` in the batch path; only the
key and the confidence drive deduplication, `answer_text` identifies the
originating submission. -/
structure BestAnswerEntry where
  question_hash : String
  answer_text : Option String
  confidence_score : ℚ
deriving DecidableEq

/-- Key test for the dedup `Map`: entry `e` is stored under hash `h`. -/
def keyIs (h : String) (e : BestAnswerEntry) : Bool :=
  e.question_hash == h

/-- One `Map.set`-style step of the batch deduplication: a new key is
appended, an existing key is overwritten in place exactly when the new
candidate's confidence is strictly greater. -/
def dedupStep (m : List BestAnswerEntry) (ba : BestAnswerEntry) :
    List BestAnswerEntry :=
  match m.find? (keyIs ba.question_hash) with
  | none => m ++ [ba]
  | some ex =>
    if ba.confidence_score > ex.confidence_score then
      m.map (fun e => if keyIs ba.question_hash e then ba else e)
    else m

/-- The `CRITICAL FIX` deduplication of `bestAnswersToUpdate`: fold the
candidates into a `Map` keyed by `question_hash`, keeping per key the
first candidate attaining the maximal confidence, then read the values
out in insertion order. -/
def deduplicateBestAnswers (l : List BestAnswerEntry) : List BestAnswerEntry :=
  l.foldl dedupStep []

/-- An existing question row, as returned by the Canvas-id lookup and read
by the smart-update logic of the batch path. -/
structure ExistingQuestion where
  question_hash : String
  text_quality_score : ℤ
  first_seen_quiz_id : String
deriving DecidableEq

/-- A freshly captured question candidate in the batch path. -/
structure QuestionCandidate where
  questionText : String
  questionType : String
  options : Option (List String)
  textSource : String
  questionId : String
deriving DecidableEq

/-- A row of `questionsToSave` produced by the batch path. -/
structure QuestionRecord where
  question_hash : String
  question_text : String
  question_type : String
  course_id : String
  first_seen_quiz_id : String
  text_quality_score : ℤ
  text_source : String
  metadata : Option String
deriving DecidableEq

/-- Whether a record merge was scheduled (`oldHashToMerge`). -/
inductive MergePlan where
  | noMerge
  | merge (oldHash newHash : String)
deriving DecidableEq

/-- The hash the batch path derives for an existing question whose text
quality improved: a still-placeholder source keeps the old hash, real
content gets a content-based hash. -/
def derivedNewHash (ex : ExistingQuestion) (cand : QuestionCandidate) : String :=
  if cand.textSource = "placeholder" then ex.question_hash
  else generateQuestionHash cand.questionText cand.questionType cand.options

/-- Hex digit for JSON `\u00XX` escapes. -/
def hexDigit (n : ℕ) : Char :=
  if n < 10 then Char.ofNat (48 + n) else Char.ofNat (87 + n)

/-- `JSON.stringify` escaping of one character inside a string literal. -/
def jsonEscapeChar (c : Char) : List Char :=
  if c == '"' then ['\\', '"']
  else if c == '\\' then ['\\', '\\']
  else if c.toNat == 8 then ['\\', 'b']
  else if c.toNat == 9 then ['\\', 't']
  else if c.toNat == 10 then ['\\', 'n']
  else if c.toNat == 12 then ['\\', 'f']
  else if c.toNat == 13 then ['\\', 'r']
  else if c.toNat < 32 then
    ['\\', 'u', '0', '0', hexDigit (c.toNat / 16), hexDigit (c.toNat % 16)]
  else [c]

/-- `JSON.stringify` of a string. -/
def jsonQuote (s : String) : String :=
  String.mk ('"' :: s.data.foldr (fun c acc => jsonEscapeChar c ++ acc) ['"'])

/-- `.join(',')` used inside the array serialization. -/
def joinComma : List String → String
  | [] => ""
  | [x] => x
  | x :: xs => x ++ "," ++ joinComma xs

/-- `JSON.stringify` of an array of strings, as used for `metadata`. -/
def jsonStringifyStrArray (l : List String) : String :=
  "[" ++ joinComma (l.map jsonQuote) ++ "]"

/-- The per-question outcome of the batch path's question handling. -/
structure ProcessOutcome where
  questionHash : String
  shouldSaveQuestion : Bool
  savedRecord : Option QuestionRecord
  mergePlan : MergePlan
deriving DecidableEq

/-- The per-question smart-update logic of
`processCanvasSubmissionsWithQuestionData`: compare the candidate's text
quality with the existing one (by Canvas question id), decide between
keep / in-place update / merge, pick the question hash (temporary
`canvas_{questionId}_{courseId}` for a new placeholder question), and
build the `questionsToSave` row when a write is due. -/
def processQuestionStep (existingQuestion : Option ExistingQuestion)
    (cand : QuestionCandidate) (courseId quizId : String) : ProcessOutcome :=
  let textQuality := calculateTextQuality cand.questionText cand.textSource
  let step : String × Bool × MergePlan :=
    match existingQuestion with
    | some ex =>
      let existingQuality := jsOrInt ex.text_quality_score 0
      if textQuality > existingQuality then
        let oldHash := ex.question_hash
        let newHash := derivedNewHash ex cand
        if newHash ≠ oldHash then (newHash, true, MergePlan.merge oldHash newHash)
        else (oldHash, true, MergePlan.noMerge)
      else (ex.question_hash, false, MergePlan.noMerge)
    | none =>
      if cand.textSource = "placeholder" then
        ("canvas_" ++ cand.questionId ++ "_" ++ courseId, true, MergePlan.noMerge)
      else
        (generateQuestionHash cand.questionText cand.questionType cand.options,
          true, MergePlan.noMerge)
  let questionHash := step.1
  let shouldSaveQuestion := step.2.1
  let savedRecord : Option QuestionRecord :=
    if shouldSaveQuestion then
      some
        { question_hash := questionHash
          question_text := cand.questionText
          question_type := cand.questionType
          course_id := courseId
          first_seen_quiz_id :=
            match existingQuestion with
            | some ex => ex.first_seen_quiz_id
            | none => quizId
          text_quality_score := textQuality
          text_source := cand.textSource
          metadata :=
            match cand.options with
            | some opts => some (jsonStringifyStrArray opts)
            | none => none }
    else none
  { questionHash := questionHash
    shouldSaveQuestion := shouldSaveQuestion
    savedRecord := savedRecord
    mergePlan := step.2.2 }

/-- Modelled from the spec: the confidence rule exactly as §4.3 words it —
"if `pointsPossible > 0`, `clamp(pointsEarned / pointsPossible, 0, 1)`;
else `1.0` if outcome is correct, `0.0` otherwise."  Used only to compare
the spec's sentence against `updateBestAnswerConfidence`. -/
def claimedConfidence (isCorrect : Bool) (pointsEarned pointsPossible : ℚ) : ℚ :=
  if 0 < pointsPossible then max 0 (min 1 (pointsEarned / pointsPossible))
  else if isCorrect then 1 else 0


/-- Specification-side running best used to characterize the dedup fold:
thread a running winner through a list, replacing it only on strictly
greater confidence (so the first of tied maxima survives). -/
def runningBest : Option BestAnswerEntry → List BestAnswerEntry → Option BestAnswerEntry
  | acc, [] => acc
  | acc, x :: xs =>
    runningBest
      (some (match acc with
        | none => x
        | some b => if x.confidence_score > b.confidence_score then x else b)) xs

/-! ## Theorems -/

theorem jsOr_zero (x : ℚ) : jsOr x 0 = x := by
  unfold jsOr
  split <;> simp_all

theorem jsOrInt_zero (x : ℤ) : jsOrInt x 0 = x := by
  unfold jsOrInt
  split <;> simp_all

theorem updateBestAnswerConfidence_def (s : Submission) :
    updateBestAnswerConfidence s =
      max 0 (min 1
        (if numTruthy s.points_earned && numTruthy s.points_possible &&
            decide (0 < s.points_possible.getD 0) then
          min 1 (s.points_earned.getD 0 / s.points_possible.getD 0)
        else if boolTruthy s.is_correct then 1 else 0)) := rfl

/-- C1 (counterexample): the spec's confidence rule ("if `pointsPossible > 0`
then `clamp(pointsEarned / pointsPossible, 0, 1)`") disagrees with
`updateBestAnswer` on a correct submission with `pointsEarned = 0` and
`pointsPossible = 4`: the code's truthiness guard on `points_earned` skips
the ratio branch and yields `1.0`, the spec's rule yields `0.0`. -/
theorem confidence_claim_counterexample :
    updateBestAnswerConfidence ⟨some true, some 0, some 4⟩ ≠
      claimedConfidence true 0 4 := by
  have h1 : updateBestAnswerConfidence ⟨some true, some 0, some 4⟩ = 1 := by
    rw [updateBestAnswerConfidence_def, if_neg (by decide), if_pos (by decide)]
    norm_num [min_def, max_def]
  have h2 : claimedConfidence true 0 4 = 0 := by
    rw [claimedConfidence, if_pos (by norm_num)]
    norm_num
  rw [h1, h2]
  norm_num

/-- C1 (amended): the reconciler's confidence is
`clamp(pointsEarned / pointsPossible, 0, 1)` when `pointsEarned` and
`pointsPossible` are both truthy (non-null, nonzero) and
`pointsPossible > 0`, and otherwise `1.0` for a correct outcome and `0.0`
for any other; in particular `3/4` points give `0.75` and a correct
submission with `pointsPossible = 0` gives `1.0`. -/
theorem updateBestAnswerConfidence_rule (s : Submission) :
    (updateBestAnswerConfidence s =
      if numTruthy s.points_earned && numTruthy s.points_possible &&
          decide (0 < s.points_possible.getD 0) then
        max 0 (min 1 (s.points_earned.getD 0 / s.points_possible.getD 0))
      else if boolTruthy s.is_correct then 1 else 0) ∧
    updateBestAnswerConfidence ⟨some true, some 3, some 4⟩ = 3 / 4 ∧
    updateBestAnswerConfidence ⟨some true, some 3, some 0⟩ = 1 := by
  refine ⟨?_, ?_, ?_⟩
  · rw [updateBestAnswerConfidence_def]
    by_cases hcond : (numTruthy s.points_earned && numTruthy s.points_possible &&
        decide (0 < s.points_possible.getD 0)) = true
    · rw [if_pos hcond, if_pos hcond, ← min_assoc, min_self, max_comm]
    · rw [if_neg hcond, if_neg hcond]
      by_cases hb : boolTruthy s.is_correct = true
      · rw [if_pos hb]
        norm_num [min_def, max_def]
      · rw [if_neg hb]
        norm_num [min_def, max_def]
  · rw [updateBestAnswerConfidence_def, if_pos (by decide)]
    show max 0 (min 1 (min 1 ((3:ℚ) / 4))) = 3 / 4
    norm_num [min_def, max_def]
  · rw [updateBestAnswerConfidence_def, if_neg (by decide), if_pos (by decide)]
    norm_num [min_def, max_def]

/-- C2: `updateBestAnswer` writes a new best answer exactly when no current
best exists or the submission's confidence strictly exceeds the stored
confidence; equal confidence (0.5 vs 0.5) is a no-op, strictly greater
(0.51 vs 0.5) replaces. -/
theorem updateBestAnswer_strict_greater (currentBest : Option StoredBestAnswer)
    (s : Submission) :
    (updateBestAnswerAction currentBest s =
        BestAnswerAction.write (updateBestAnswerConfidence s) ↔
      currentBest = none ∨ ∃ b, currentBest = some b ∧
        b.confidence_score < updateBestAnswerConfidence s) ∧
    (updateBestAnswerAction currentBest s = BestAnswerAction.noop ↔
      ∃ b, currentBest = some b ∧
        updateBestAnswerConfidence s ≤ b.confidence_score) ∧
    updateBestAnswerAction (some ⟨1 / 2⟩) ⟨none, some 1, some 2⟩ =
      BestAnswerAction.noop ∧
    updateBestAnswerAction (some ⟨1 / 2⟩) ⟨none, some (51 / 100), some 1⟩ =
      BestAnswerAction.write (51 / 100) := by
  have hwne : ∀ c : ℚ, BestAnswerAction.noop ≠ BestAnswerAction.write c := by
    intro c h
    cases h
  refine ⟨?_, ?_, ?_, ?_⟩
  · cases currentBest with
    | none => simp [updateBestAnswerAction]
    | some cb =>
      simp only [updateBestAnswerAction, jsOr_zero, gt_iff_lt]
      by_cases hlt : cb.confidence_score < updateBestAnswerConfidence s
      · rw [if_pos hlt]
        exact ⟨fun _ => Or.inr ⟨cb, rfl, hlt⟩, fun _ => rfl⟩
      · rw [if_neg hlt]
        constructor
        · intro hcontra
          exact absurd hcontra (hwne _)
        · rintro (hnone | ⟨b, hb, hlt'⟩)
          · exact absurd hnone (by simp)
          · obtain rfl : cb = b := Option.some.inj hb
            exact absurd hlt' hlt
  · cases currentBest with
    | none =>
      constructor
      · intro hcontra
        exact absurd hcontra.symm (hwne _)
      · rintro ⟨b, hb, _⟩
        exact absurd hb (by simp)
    | some cb =>
      simp only [updateBestAnswerAction, jsOr_zero, gt_iff_lt]
      by_cases hlt : cb.confidence_score < updateBestAnswerConfidence s
      · rw [if_pos hlt]
        constructor
        · intro hcontra
          exact absurd hcontra.symm (hwne _)
        · rintro ⟨b, hb, hle⟩
          obtain rfl : cb = b := Option.some.inj hb
          exact absurd hlt (not_lt.mpr hle)
      · rw [if_neg hlt]
        exact ⟨fun _ => ⟨cb, rfl, not_lt.mp hlt⟩, fun _ => rfl⟩
  · have hc : updateBestAnswerConfidence ⟨none, some 1, some 2⟩ = 1 / 2 := by
      rw [updateBestAnswerConfidence_def, if_pos (by decide)]
      show max 0 (min 1 (min 1 ((1:ℚ) / 2))) = 1 / 2
      norm_num [min_def, max_def]
    simp only [updateBestAnswerAction, hc, jsOr_zero, gt_iff_lt]
    norm_num
  · have hc : updateBestAnswerConfidence ⟨none, some (51 / 100), some 1⟩ = 51 / 100 := by
      rw [updateBestAnswerConfidence_def, if_pos (by
        simp only [numTruthy, Option.getD_some, Bool.and_eq_true, decide_eq_true_eq]
        norm_num)]
      norm_num [Option.getD_some, min_def, max_def]
    simp only [updateBestAnswerAction, hc, jsOr_zero, gt_iff_lt]
    norm_num

/-- C8 (counterexample): the quality scorer gives
"What is the capital of France?" (30 characters) with direct-DOM source the
score `100 + 30 + 20 + 10 = 160`, not the 161 the spec computes from a
31-character count. -/
theorem quality_score_161_counterexample :
    calculateTextQuality "What is the capital of France?" "dom" ≠ 161 := by
  decide

/-- C8 (amended): the placeholder text "Question 5" scores exactly 0 after
clamping, "What is the capital of France?" with direct-DOM source scores
exactly 160, and the former is strictly less than the latter. -/
theorem quality_score_examples :
    calculateTextQuality "Question 5" "placeholder" = 0 ∧
      calculateTextQuality "What is the capital of France?" "dom" = 160 ∧
      calculateTextQuality "Question 5" "placeholder" <
        calculateTextQuality "What is the capital of France?" "dom" := by
  refine ⟨by decide, by decide, by decide⟩

set_option maxRecDepth 16384 in
/-- C9 (code evaluation): with missing (`undefined`) text both functions do
throw a `TypeError`, but with *empty* text neither fails fast — the
fingerprint generator silently hashes `"multiple_choice_question:"` and the
quality scorer silently returns 100, contradicting the spec's fail-fast
requirement for empty text. -/
theorem empty_text_is_silently_processed :
    generateQuestionHashJs (some "") "multiple_choice_question" none =
        Except.ok (simpleHash "multiple_choice_question:") ∧
      calculateTextQualityJs (some "") "dom" = Except.ok 100 ∧
      generateQuestionHashJs none "multiple_choice_question" none =
        Except.error JsError.typeError ∧
      calculateTextQualityJs none "dom" = Except.error JsError.typeError := by
  refine ⟨?_, ?_, rfl, rfl⟩
  · show Except.ok (generateQuestionHash "" "multiple_choice_question" none) =
      Except.ok (simpleHash "multiple_choice_question:")
    exact congrArg Except.ok (by decide)
  · show Except.ok (calculateTextQuality "" "dom") = Except.ok (100 : ℤ)
    exact congrArg Except.ok (by decide)

/-- C10 (counterexample): the two confidence computations are not
extensionally equal: on an incorrect submission with 3 of 4 points the
batch path's inline rule gives 0 while `updateBestAnswer` gives 0.75. -/
theorem inline_confidence_counterexample :
    inlineConfidence (some false) (some 3) (some 4) ≠
      updateBestAnswerConfidence ⟨some false, some 3, some 4⟩ := by
  have h1 : inlineConfidence (some false) (some 3) (some 4) = 0 := by
    rw [inlineConfidence, if_neg (by decide)]
  have h2 : updateBestAnswerConfidence ⟨some false, some 3, some 4⟩ = 3 / 4 := by
    rw [updateBestAnswerConfidence_def, if_pos (by decide)]
    show max 0 (min 1 (min 1 ((3:ℚ) / 4))) = 3 / 4
    norm_num [min_def, max_def]
  rw [h1, h2]
  norm_num

/-- C10 (amended): on submissions that are correct with strictly positive
`points_earned` and `points_possible`, the inline batch confidence and the
`updateBestAnswer` confidence agree. -/
theorem inline_confidence_agrees_on_correct_positive (c : Option Bool) (e p : ℚ)
    (hc : boolTruthy c = true) (he : 0 < e) (hp : 0 < p) :
    inlineConfidence c (some e) (some p) =
      updateBestAnswerConfidence ⟨c, some e, some p⟩ := by
  have hne : e ≠ 0 := ne_of_gt he
  have hnp : p ≠ 0 := ne_of_gt hp
  have hdiv : (0:ℚ) ≤ e / p := le_of_lt (div_pos he hp)
  have h0 : (0:ℚ) ≤ min 1 (e / p) := le_min (by norm_num) hdiv
  have hcond : (numTruthy (some e) && numTruthy (some p) &&
      decide (0 < (p : ℚ))) = true := by
    simp [numTruthy, hne, hnp, hp]
  rw [inlineConfidence, if_pos hc, updateBestAnswerConfidence_def]
  simp only [jsOrOpt, if_neg hne, if_neg hnp, Option.getD_some]
  rw [if_pos hcond, ← min_assoc, min_self, max_eq_right h0]

/-- C10 (witness): the agreement theorem instantiated at a correct
submission with 3 of 4 points. -/
theorem inline_confidence_agrees_witness :
    boolTruthy (some true) = true ∧ (0:ℚ) < 3 ∧ (0:ℚ) < 4 ∧
      inlineConfidence (some true) (some 3) (some 4) =
        updateBestAnswerConfidence ⟨some true, some 3, some 4⟩ :=
  ⟨rfl, by norm_num, by norm_num,
    inline_confidence_agrees_on_correct_positive (some true) 3 4 rfl
      (by norm_num) (by norm_num)⟩

/-- C4: for an existing question record, a record merge from the old to a
new fingerprint is scheduled if and only if the candidate's text quality is
strictly greater than the stored quality AND the derived fingerprint
differs from the stored one; with candidate quality at most the stored
quality, the existing record is kept, no question row is written, and the
stored hash and no-merge stand. -/
theorem merge_decision_rule (ex : ExistingQuestion) (cand : QuestionCandidate)
    (courseId quizId : String) :
    ((processQuestionStep (some ex) cand courseId quizId).mergePlan =
      if ex.text_quality_score < calculateTextQuality cand.questionText cand.textSource ∧
          derivedNewHash ex cand ≠ ex.question_hash then
        MergePlan.merge ex.question_hash (derivedNewHash ex cand)
      else MergePlan.noMerge) ∧
    (calculateTextQuality cand.questionText cand.textSource ≤ ex.text_quality_score ↔
      (processQuestionStep (some ex) cand courseId quizId).shouldSaveQuestion = false ∧
        (processQuestionStep (some ex) cand courseId quizId).savedRecord = none ∧
        (processQuestionStep (some ex) cand courseId quizId).questionHash =
          ex.question_hash ∧
        (processQuestionStep (some ex) cand courseId quizId).mergePlan =
          MergePlan.noMerge) := by
  by_cases hq : ex.text_quality_score < calculateTextQuality cand.questionText cand.textSource
  · by_cases hh : derivedNewHash ex cand = ex.question_hash
    · constructor
      · rw [if_neg (by
          rintro ⟨-, hcon⟩
          exact hcon hh)]
        simp [processQuestionStep, jsOrInt_zero, hq, hh]
      · constructor
        · intro hle
          exact absurd hq (not_lt.mpr hle)
        · rintro ⟨hfalse, -, -, -⟩
          exact absurd hfalse (by simp [processQuestionStep, jsOrInt_zero, hq, hh])
    · constructor
      · rw [if_pos ⟨hq, hh⟩]
        simp [processQuestionStep, jsOrInt_zero, hq, hh]
      · constructor
        · intro hle
          exact absurd hq (not_lt.mpr hle)
        · rintro ⟨hfalse, -, -, -⟩
          exact absurd hfalse (by simp [processQuestionStep, jsOrInt_zero, hq, hh])
  · constructor
    · rw [if_neg (by
        rintro ⟨hcon, -⟩
        exact hq hcon)]
      simp [processQuestionStep, jsOrInt_zero, hq]
    · constructor
      · intro hle
        refine ⟨?_, ?_, ?_, ?_⟩ <;> simp [processQuestionStep, jsOrInt_zero, hq]
      · intro _
        exact not_lt.mp hq

/-- C5 (counterexample): for a new placeholder question observed with the
same native question id and the same quiz attempt context, two different
course ids produce two different temporary identifiers, so the identifier
is not determined by (nativeQuestionId, attemptContext) — it is scoped to
the course id instead of the quiz attempt context. -/
theorem placeholder_identity_counterexample :
    (processQuestionStep none
        ⟨"Question 7", "unknown", none, "placeholder", "7"⟩ "course1" "quiz1").questionHash ≠
      (processQuestionStep none
        ⟨"Question 7", "unknown", none, "placeholder", "7"⟩ "course2" "quiz1").questionHash := by
  decide

/-- C5 (amended): for a new question with placeholder text source, the
assigned identifier is the temporary hash `canvas_{questionId}_{courseId}`:
it is not derived from the placeholder text (the text does not occur in it)
and is scoped to (nativeQuestionId, courseId). -/
theorem placeholder_bootstrap_identity (cand : QuestionCandidate)
    (courseId quizId : String) (h : cand.textSource = "placeholder") :
    (processQuestionStep none cand courseId quizId).questionHash =
      "canvas_" ++ cand.questionId ++ "_" ++ courseId := by
  simp [processQuestionStep, h]

/-- C5 (witness): the placeholder-bootstrap theorem instantiated at a
concrete placeholder candidate. -/
theorem placeholder_bootstrap_identity_witness :
    (⟨"Question 7", "unknown", none, "placeholder", "7"⟩ : QuestionCandidate).textSource =
        "placeholder" ∧
      (processQuestionStep none ⟨"Question 7", "unknown", none, "placeholder", "7"⟩
          "c1" "q1").questionHash = "canvas_" ++ "7" ++ "_" ++ "c1" :=
  ⟨rfl, placeholder_bootstrap_identity
    ⟨"Question 7", "unknown", none, "placeholder", "7"⟩ "c1" "q1" rfl⟩

/-- C6 (counterexample): the claim that every written field other than
text, type, quality, source and hash is taken from the original record is
false: with one and the same original record, two candidates differing
only in their options produce written records with different `metadata`
fields, so `metadata` comes from the candidate, not from the original. -/
theorem saved_record_fields_counterexample :
    ((processQuestionStep (some ⟨"oldhash", 0, "quizA"⟩)
        ⟨"Question 5 something", "unknown", some ["X"], "placeholder", "7"⟩
        "course" "quiz9").savedRecord.map QuestionRecord.metadata) ≠
      ((processQuestionStep (some ⟨"oldhash", 0, "quizA"⟩)
        ⟨"Question 5 something", "unknown", some ["Y"], "placeholder", "7"⟩
        "course" "quiz9").savedRecord.map QuestionRecord.metadata) := by
  decide

/-- C6 (amended): whenever the batch path writes a question row for an
existing record (in-place update or fingerprint-changing merge), the row
keeps the original record's `first_seen_quiz_id` — not the quiz that
triggered the update — while its text, type, quality, source come from the
candidate, its `course_id` is the batch's course id, and its `metadata` is
serialized from the candidate's options. -/
theorem saved_record_fields (ex : ExistingQuestion) (cand : QuestionCandidate)
    (courseId quizId : String) (r : QuestionRecord)
    (h : (processQuestionStep (some ex) cand courseId quizId).savedRecord = some r) :
    r.first_seen_quiz_id = ex.first_seen_quiz_id ∧
      r.question_text = cand.questionText ∧
      r.question_type = cand.questionType ∧
      r.text_quality_score = calculateTextQuality cand.questionText cand.textSource ∧
      r.text_source = cand.textSource ∧
      r.course_id = courseId ∧
      r.metadata = (match cand.options with
        | some opts => some (jsonStringifyStrArray opts)
        | none => none) := by
  by_cases hq : ex.text_quality_score < calculateTextQuality cand.questionText cand.textSource
  · by_cases hh : derivedNewHash ex cand = ex.question_hash
    · simp only [processQuestionStep, jsOrInt_zero, if_pos hq, hh, ne_eq,
        not_true_eq_false, if_false, if_true, ite_true, ite_false,
        Option.some.injEq] at h
      subst h
      exact ⟨rfl, rfl, rfl, rfl, rfl, rfl, rfl⟩
    · simp only [processQuestionStep, jsOrInt_zero, if_pos hq, hh, ne_eq,
        not_false_eq_true, if_false, if_true, ite_true, ite_false,
        Option.some.injEq] at h
      subst h
      exact ⟨rfl, rfl, rfl, rfl, rfl, rfl, rfl⟩
  · exact absurd h (by simp [processQuestionStep, jsOrInt_zero, hq])

/-- C6 (witness): the field theorem instantiated at a concrete in-place
placeholder upgrade (original quality 0, candidate quality 30). -/
theorem saved_record_fields_witness :
    (processQuestionStep (some ⟨"oldhash", 0, "quizA"⟩)
        ⟨"Question 5 something", "unknown", some ["X"], "placeholder", "7"⟩
        "course" "quiz9").savedRecord =
      some ⟨"oldhash", "Question 5 something", "unknown", "course", "quizA", 30,
        "placeholder", some "[\"X\"]"⟩ ∧
    ((⟨"oldhash", "Question 5 something", "unknown", "course", "quizA", 30,
        "placeholder", some "[\"X\"]"⟩ : QuestionRecord).first_seen_quiz_id = "quizA" ∧
      (⟨"oldhash", "Question 5 something", "unknown", "course", "quizA", 30,
        "placeholder", some "[\"X\"]"⟩ : QuestionRecord).question_text =
          "Question 5 something" ∧
      (⟨"oldhash", "Question 5 something", "unknown", "course", "quizA", 30,
        "placeholder", some "[\"X\"]"⟩ : QuestionRecord).question_type = "unknown" ∧
      (⟨"oldhash", "Question 5 something", "unknown", "course", "quizA", 30,
        "placeholder", some "[\"X\"]"⟩ : QuestionRecord).text_quality_score =
          calculateTextQuality "Question 5 something" "placeholder" ∧
      (⟨"oldhash", "Question 5 something", "unknown", "course", "quizA", 30,
        "placeholder", some "[\"X\"]"⟩ : QuestionRecord).text_source = "placeholder" ∧
      (⟨"oldhash", "Question 5 something", "unknown", "course", "quizA", 30,
        "placeholder", some "[\"X\"]"⟩ : QuestionRecord).course_id = "course" ∧
      (⟨"oldhash", "Question 5 something", "unknown", "course", "quizA", 30,
        "placeholder", some "[\"X\"]"⟩ : QuestionRecord).metadata =
          some (jsonStringifyStrArray ["X"])) :=
  ⟨by decide,
    saved_record_fields ⟨"oldhash", 0, "quizA"⟩
      ⟨"Question 5 something", "unknown", some ["X"], "placeholder", "7"⟩
      "course" "quiz9" _ (by decide)⟩

theorem charListLe_total : ∀ a b : List Char, charListLe a b = true ∨ charListLe b a = true := by
  intro a
  induction a with
  | nil => intro b; left; rfl
  | cons x xs ih =>
    intro b
    cases b with
    | nil => right; rfl
    | cons y ys =>
      rcases lt_trichotomy x y with hxy | hxy | hxy
      · left
        simp [charListLe, hxy]
      · subst hxy
        rcases ih ys with h | h
        · left
          simpa [charListLe] using h
        · right
          simpa [charListLe] using h
      · right
        simp [charListLe, hxy]

theorem charListLe_trans : ∀ a b c : List Char, charListLe a b = true →
    charListLe b c = true → charListLe a c = true := by
  intro a
  induction a with
  | nil => intro b c _ _; rfl
  | cons x xs ih =>
    intro b c hab hbc
    cases b with
    | nil => exact absurd hab (by simp [charListLe])
    | cons y ys =>
      cases c with
      | nil => exact absurd hbc (by simp [charListLe])
      | cons z zs =>
        rcases lt_trichotomy x y with hxy | hxy | hxy
        · rcases lt_trichotomy y z with hyz | hyz | hyz
          · simp [charListLe, lt_trans hxy hyz]
          · subst hyz
            simp [charListLe, hxy]
          · rcases lt_trichotomy x z with hxz | hxz | hxz
            · simp [charListLe, hxz]
            · subst hxz
              exact absurd hbc (by simp [charListLe, hyz, lt_asymm hyz])
            · exact absurd hbc (by simp [charListLe, hyz, lt_asymm hyz])
        · subst hxy
          rcases lt_trichotomy x z with hxz | hxz | hxz
          · simp [charListLe, hxz]
          · subst hxz
            have hab' : charListLe xs ys = true := by
              simpa [charListLe, lt_irrefl] using hab
            have hbc' : charListLe ys zs = true := by
              simpa [charListLe, lt_irrefl] using hbc
            simpa [charListLe, lt_irrefl] using ih ys zs hab' hbc'
          · exact absurd hbc (by simp [charListLe, hxz, lt_asymm hxz])
        · exact absurd hab (by simp [charListLe, hxy, lt_asymm hxy])

theorem charListLe_antisymm : ∀ a b : List Char, charListLe a b = true →
    charListLe b a = true → a = b := by
  intro a
  induction a with
  | nil =>
    intro b _ hba
    cases b with
    | nil => rfl
    | cons y ys => exact absurd hba (by simp [charListLe])
  | cons x xs ih =>
    intro b hab hba
    cases b with
    | nil => exact absurd hab (by simp [charListLe])
    | cons y ys =>
      rcases lt_trichotomy x y with hxy | hxy | hxy
      · exact absurd hba (by simp [charListLe, hxy, lt_asymm hxy])
      · subst hxy
        have hab' : charListLe xs ys = true := by
          simpa [charListLe, lt_irrefl] using hab
        have hba' : charListLe ys xs = true := by
          simpa [charListLe, lt_irrefl] using hba
        rw [ih ys hab' hba']
      · exact absurd hab (by simp [charListLe, hxy, lt_asymm hxy])

instance : IsTotal String optionLe := by
  constructor
  intro a b
  exact charListLe_total a.data b.data

instance : IsTrans String optionLe := by
  constructor
  intro a b c hab hbc
  exact charListLe_trans a.data b.data c.data hab hbc

instance : IsAntisymm String optionLe := by
  constructor
  intro a b hab hba
  have hdata : a.data = b.data := charListLe_antisymm a.data b.data hab hba
  cases a with
  | mk d1 =>
    cases b with
    | mk d2 =>
      exact congrArg String.mk (by simpa using hdata)

theorem sortOptions_perm_eq (l₁ l₂ : List String) (h : l₁.Perm l₂) :
    sortOptions l₁ = sortOptions l₂ := by
  apply List.eq_of_perm_of_sorted (r := optionLe)
  · exact (List.perm_insertionSort optionLe l₁).trans
      (h.trans (List.perm_insertionSort optionLe l₂).symm)
  · exact List.sorted_insertionSort optionLe l₁
  · exact List.sorted_insertionSort optionLe l₂

/-- C7: the fingerprint generator is invariant under permutation of the
option list — the options are normalized, sorted and joined before
hashing — and in particular `["A","B"]` and `["B","A"]` give the same
hash for every question text. -/
theorem fingerprint_option_order_invariance :
    (∀ (t ty : String) (o₁ o₂ : List String), o₁.Perm o₂ →
        generateQuestionHash t ty (some o₁) = generateQuestionHash t ty (some o₂)) ∧
      ∀ t : String, generateQuestionHash t "multiple_choice_question" (some ["A", "B"]) =
        generateQuestionHash t "multiple_choice_question" (some ["B", "A"]) := by
  have hmain : ∀ (t ty : String) (o₁ o₂ : List String), o₁.Perm o₂ →
      generateQuestionHash t ty (some o₁) = generateQuestionHash t ty (some o₂) := by
    intro t ty o₁ o₂ hperm
    have hsort : sortOptions (o₁.map normalizeOption) =
        sortOptions (o₂.map normalizeOption) :=
      sortOptions_perm_eq _ _ (hperm.map normalizeOption)
    show simpleHash (ty ++ ":" ++ cleanQuestionText t ++ ":" ++
        joinPipe (sortOptions (o₁.map normalizeOption))) =
      simpleHash (ty ++ ":" ++ cleanQuestionText t ++ ":" ++
        joinPipe (sortOptions (o₂.map normalizeOption)))
    rw [hsort]
  exact ⟨hmain, fun t => hmain t "multiple_choice_question" ["A", "B"] ["B", "A"]
    (List.Perm.swap "B" "A" [])⟩

/-- C7 (witness): the invariance theorem applied to the concrete swapped
option lists `["A","B"]` and `["B","A"]`. -/
theorem fingerprint_option_order_invariance_witness :
    (["A", "B"] : List String).Perm ["B", "A"] ∧
      generateQuestionHash "x" "multiple_choice_question" (some ["A", "B"]) =
        generateQuestionHash "x" "multiple_choice_question" (some ["B", "A"]) :=
  ⟨List.Perm.swap "B" "A" [],
    fingerprint_option_order_invariance.1 "x" "multiple_choice_question"
      ["A", "B"] ["B", "A"] (List.Perm.swap "B" "A" [])⟩

theorem find?_replace (m : List BestAnswerEntry) (ba : BestAnswerEntry) (h : String) :
    (m.map (fun e => if keyIs ba.question_hash e then ba else e)).find? (keyIs h) =
      (m.find? (keyIs h)).map (fun e => if keyIs ba.question_hash e then ba else e) := by
  rw [List.find?_map]
  have hfun : (keyIs h ∘ fun e => if keyIs ba.question_hash e then ba else e) = keyIs h := by
    funext e
    by_cases hc : keyIs ba.question_hash e = true
    · have heq : e.question_hash = ba.question_hash := by
        simpa [keyIs] using hc
      simp [Function.comp, keyIs, hc, heq]
    · simp [Function.comp, hc]
  rw [hfun]

theorem dedupStep_of_new (m : List BestAnswerEntry) (ba : BestAnswerEntry)
    (hfind : m.find? (keyIs ba.question_hash) = none) :
    dedupStep m ba = m ++ [ba] := by
  unfold dedupStep
  rw [hfind]

theorem dedupStep_of_better (m : List BestAnswerEntry) (ba ex : BestAnswerEntry)
    (hfind : m.find? (keyIs ba.question_hash) = some ex)
    (hconf : ba.confidence_score > ex.confidence_score) :
    dedupStep m ba = m.map (fun e => if keyIs ba.question_hash e then ba else e) := by
  unfold dedupStep
  rw [hfind]
  exact if_pos hconf

theorem dedupStep_of_not_better (m : List BestAnswerEntry) (ba ex : BestAnswerEntry)
    (hfind : m.find? (keyIs ba.question_hash) = some ex)
    (hconf : ¬ ba.confidence_score > ex.confidence_score) :
    dedupStep m ba = m := by
  unfold dedupStep
  rw [hfind]
  exact if_neg hconf

theorem nodup_keys_dedupStep (m : List BestAnswerEntry) (ba : BestAnswerEntry)
    (hm : (m.map BestAnswerEntry.question_hash).Nodup) :
    ((dedupStep m ba).map BestAnswerEntry.question_hash).Nodup := by
  cases hfind : m.find? (keyIs ba.question_hash) with
  | none =>
    rw [dedupStep_of_new m ba hfind]
    have hnot : ∀ e ∈ m, ¬ keyIs ba.question_hash e = true := List.find?_eq_none.mp hfind
    have hni : ba.question_hash ∉ m.map BestAnswerEntry.question_hash := by
      intro hmem
      rcases List.mem_map.mp hmem with ⟨e, he, heq⟩
      exact hnot e he (by simp [keyIs, heq])
    have hperm : ((m ++ [ba]).map BestAnswerEntry.question_hash).Perm
        (ba.question_hash :: m.map BestAnswerEntry.question_hash) := by
      rw [List.map_append]
      exact List.perm_append_singleton ba.question_hash
        (m.map BestAnswerEntry.question_hash)
    exact hperm.nodup_iff.mpr (List.nodup_cons.mpr ⟨hni, hm⟩)
  | some ex =>
    by_cases hconf : ba.confidence_score > ex.confidence_score
    · rw [dedupStep_of_better m ba ex hfind hconf]
      have hfun : (BestAnswerEntry.question_hash ∘
          fun e => if keyIs ba.question_hash e then ba else e) =
            BestAnswerEntry.question_hash := by
        funext e
        by_cases hc : keyIs ba.question_hash e = true
        · have heq : e.question_hash = ba.question_hash := by
            simpa [keyIs] using hc
          simp [Function.comp, hc, heq]
        · simp [Function.comp, hc]
      rw [List.map_map, hfun]
      exact hm
    · rw [dedupStep_of_not_better m ba ex hfind hconf]
      exact hm

theorem sel_dedupStep (m : List BestAnswerEntry) (ba : BestAnswerEntry) (h : String) :
    (dedupStep m ba).find? (keyIs h) =
      if ba.question_hash = h then
        match m.find? (keyIs h) with
        | none => some ba
        | some ex =>
          if ba.confidence_score > ex.confidence_score then some ba else some ex
      else m.find? (keyIs h) := by
  by_cases hbh : ba.question_hash = h
  · subst hbh
    rw [if_pos rfl]
    cases hfind : m.find? (keyIs ba.question_hash) with
    | none =>
      rw [dedupStep_of_new m ba hfind, List.find?_append, hfind, Option.none_or]
      exact List.find?_cons_of_pos [] (by simp [keyIs])
    | some ex =>
      by_cases hconf : ba.confidence_score > ex.confidence_score
      · rw [dedupStep_of_better m ba ex hfind hconf, find?_replace, hfind]
        have hk : keyIs ba.question_hash ex = true := List.find?_some hfind
        simp [hk, hconf]
      · rw [dedupStep_of_not_better m ba ex hfind hconf, hfind]
        simp [hconf]
  · rw [if_neg hbh]
    cases hfind : m.find? (keyIs ba.question_hash) with
    | none =>
      rw [dedupStep_of_new m ba hfind, List.find?_append]
      have hsingle : [ba].find? (keyIs h) = none := by
        rw [List.find?_cons_of_neg [] (by simpa [keyIs] using hbh)]
        rfl
      rw [hsingle, Option.or_none]
    | some ex =>
      by_cases hconf : ba.confidence_score > ex.confidence_score
      · rw [dedupStep_of_better m ba ex hfind hconf, find?_replace]
        cases hsel : m.find? (keyIs h) with
        | none => rfl
        | some e =>
          have hk : keyIs h e = true := List.find?_some hsel
          have heq : e.question_hash = h := by
            simpa [keyIs] using hk
          have hne : ¬ keyIs ba.question_hash e = true := by
            simpa [keyIs, heq] using Ne.symm hbh
          simp [hne]
      · rw [dedupStep_of_not_better m ba ex hfind hconf]

theorem sel_foldl (l : List BestAnswerEntry) :
    ∀ m : List BestAnswerEntry, (m.map BestAnswerEntry.question_hash).Nodup →
      ∀ h, (l.foldl dedupStep m).find? (keyIs h) =
        runningBest (m.find? (keyIs h)) (l.filter (keyIs h)) := by
  induction l with
  | nil =>
    intro m _ h
    rfl
  | cons x xs ih =>
    intro m hm h
    rw [List.foldl_cons, ih (dedupStep m x) (nodup_keys_dedupStep m x hm) h,
      sel_dedupStep, List.filter_cons]
    by_cases hxh : x.question_hash = h
    · rw [if_pos hxh, if_pos (by simp [keyIs, hxh])]
      have hstep : (match m.find? (keyIs h) with
          | none => some x
          | some ex =>
            if x.confidence_score > ex.confidence_score then some x else some ex) =
          some (match m.find? (keyIs h) with
            | none => x
            | some ex =>
              if x.confidence_score > ex.confidence_score then x else ex) := by
        cases m.find? (keyIs h) with
        | none => rfl
        | some ex =>
          by_cases hc : x.confidence_score > ex.confidence_score
          · simp [hc]
          · simp [hc]
      rw [hstep]
      rfl
    · rw [if_neg hxh, if_neg (by simp [keyIs, hxh])]

theorem runningBest_some_ne_none (l : List BestAnswerEntry) :
    ∀ a : BestAnswerEntry, runningBest (some a) l ≠ none := by
  induction l with
  | nil =>
    intro a hcon
    exact Option.noConfusion hcon
  | cons x xs ih =>
    intro a
    exact ih _

theorem runningBest_none_eq_none_iff (l : List BestAnswerEntry) :
    runningBest none l = none ↔ l = [] := by
  cases l with
  | nil => simp [runningBest]
  | cons x xs =>
    constructor
    · intro hc
      exact absurd hc (runningBest_some_ne_none xs x)
    · intro hc
      exact absurd hc (List.cons_ne_nil x xs)

theorem runningBest_some_iff (l : List BestAnswerEntry) :
    ∀ a b : BestAnswerEntry, runningBest (some a) l = some b ↔
      (b = a ∧ ∀ x ∈ l, x.confidence_score ≤ a.confidence_score) ∨
      ∃ l₁ l₂, l = l₁ ++ b :: l₂ ∧ a.confidence_score < b.confidence_score ∧
        (∀ x ∈ l₁, x.confidence_score < b.confidence_score) ∧
        ∀ x ∈ l₂, x.confidence_score ≤ b.confidence_score := by
  induction l with
  | nil =>
    intro a b
    constructor
    · intro hr
      left
      refine ⟨(Option.some.inj hr).symm, ?_⟩
      intro x hx
      exact absurd hx (List.not_mem_nil x)
    · rintro (⟨rfl, -⟩ | ⟨l₁, l₂, hsplit, -⟩)
      · rfl
      · exact absurd hsplit (by simp)
  | cons x xs ih =>
    intro a b
    have hred : runningBest (some a) (x :: xs) =
        runningBest (some (if x.confidence_score > a.confidence_score then x else a)) xs :=
      rfl
    rw [hred, ih]
    by_cases hxa : a.confidence_score < x.confidence_score
    · rw [if_pos hxa]
      constructor
      · rintro (⟨rfl, hall⟩ | ⟨l₁, l₂, rfl, hlt, hpre, hpost⟩)
        · right
          exact ⟨[], xs, rfl, hxa, by simp, hall⟩
        · right
          refine ⟨x :: l₁, l₂, rfl, lt_trans hxa hlt, ?_, hpost⟩
          intro y hy
          rcases List.mem_cons.mp hy with rfl | hy'
          · exact hlt
          · exact hpre y hy'
      · rintro (⟨rfl, hall⟩ | ⟨l₁, l₂, hsplit, hlt, hpre, hpost⟩)
        · exact absurd (hall x (List.mem_cons_self x xs)) (not_le.mpr hxa)
        · cases l₁ with
          | nil =>
            obtain ⟨rfl, rfl⟩ : x = b ∧ xs = l₂ := by
              simpa using hsplit
            left
            exact ⟨rfl, hpost⟩
          | cons y l₁' =>
            obtain ⟨rfl, rfl⟩ : x = y ∧ xs = l₁' ++ b :: l₂ := by
              simpa using hsplit
            right
            refine ⟨l₁', l₂, rfl, hpre x (List.mem_cons_self x l₁'), ?_, hpost⟩
            intro z hz
            exact hpre z (List.mem_cons_of_mem x hz)
    · rw [if_neg hxa]
      have hxa' : x.confidence_score ≤ a.confidence_score := not_lt.mp hxa
      constructor
      · rintro (⟨rfl, hall⟩ | ⟨l₁, l₂, rfl, hlt, hpre, hpost⟩)
        · left
          refine ⟨rfl, ?_⟩
          intro y hy
          rcases List.mem_cons.mp hy with rfl | hy'
          · exact hxa'
          · exact hall y hy'
        · right
          refine ⟨x :: l₁, l₂, rfl, hlt, ?_, hpost⟩
          intro y hy
          rcases List.mem_cons.mp hy with rfl | hy'
          · exact lt_of_le_of_lt hxa' hlt
          · exact hpre y hy'
      · rintro (⟨rfl, hall⟩ | ⟨l₁, l₂, hsplit, hlt, hpre, hpost⟩)
        · left
          exact ⟨rfl, fun y hy => hall y (List.mem_cons_of_mem x hy)⟩
        · cases l₁ with
          | nil =>
            obtain ⟨rfl, rfl⟩ : x = b ∧ xs = l₂ := by
              simpa using hsplit
            exact absurd hlt hxa
          | cons y l₁' =>
            obtain ⟨rfl, rfl⟩ : x = y ∧ xs = l₁' ++ b :: l₂ := by
              simpa using hsplit
            right
            refine ⟨l₁', l₂, rfl, hlt, ?_, hpost⟩
            intro z hz
            exact hpre z (List.mem_cons_of_mem x hz)

theorem runningBest_head_iff (t : List BestAnswerEntry) (x b : BestAnswerEntry) :
    runningBest (some x) t = some b ↔
      ∃ l₁ l₂, x :: t = l₁ ++ b :: l₂ ∧
        (∀ y ∈ l₁, y.confidence_score < b.confidence_score) ∧
        ∀ y ∈ l₂, y.confidence_score ≤ b.confidence_score := by
  rw [runningBest_some_iff]
  constructor
  · rintro (⟨rfl, hall⟩ | ⟨l₁, l₂, rfl, hlt, hpre, hpost⟩)
    · exact ⟨[], t, rfl, by simp, hall⟩
    · refine ⟨x :: l₁, l₂, rfl, ?_, hpost⟩
      intro y hy
      rcases List.mem_cons.mp hy with rfl | hy'
      · exact hlt
      · exact hpre y hy'
  · rintro ⟨l₁, l₂, hsplit, hpre, hpost⟩
    cases l₁ with
    | nil =>
      obtain ⟨rfl, rfl⟩ : x = b ∧ t = l₂ := by
        simpa using hsplit
      left
      exact ⟨rfl, hpost⟩
    | cons y l₁' =>
      obtain ⟨rfl, rfl⟩ : x = y ∧ t = l₁' ++ b :: l₂ := by
        simpa using hsplit
      right
      refine ⟨l₁', l₂, rfl, hpre x (List.mem_cons_self x l₁'), ?_, hpost⟩
      intro z hz
      exact hpre z (List.mem_cons_of_mem x hz)

theorem filter_length_of_nodup_keys (h : String) :
    ∀ m : List BestAnswerEntry, (m.map BestAnswerEntry.question_hash).Nodup →
      (m.filter (keyIs h)).length =
        if m.find? (keyIs h) = none then 0 else 1 := by
  intro m
  induction m with
  | nil =>
    intro _
    rfl
  | cons e t ih =>
    intro hm
    rw [List.map_cons, List.nodup_cons] at hm
    obtain ⟨hni, hnd⟩ := hm
    by_cases he : keyIs h e = true
    · rw [List.filter_cons_of_pos he, List.find?_cons_of_pos t he]
      have heq : e.question_hash = h := by
        simpa [keyIs] using he
      have hfe : t.filter (keyIs h) = [] := by
        rw [List.filter_eq_nil_iff]
        intro y hy hky
        have hyq : y.question_hash = h := by
          simpa [keyIs] using hky
        exact hni (List.mem_map.mpr ⟨y, hy, by rw [hyq, heq]⟩)
      rw [List.length_cons, hfe]
      simp
    · rw [List.filter_cons_of_neg he, List.find?_cons_of_neg t he]
      exact ih hnd

theorem nodup_keys_dedup (l : List BestAnswerEntry) :
    ((deduplicateBestAnswers l).map BestAnswerEntry.question_hash).Nodup := by
  have hgen : ∀ m : List BestAnswerEntry, (m.map BestAnswerEntry.question_hash).Nodup →
      ((l.foldl dedupStep m).map BestAnswerEntry.question_hash).Nodup := by
    induction l with
    | nil =>
      intro m hm
      exact hm
    | cons x xs ih =>
      intro m hm
      rw [List.foldl_cons]
      exact ih (dedupStep m x) (nodup_keys_dedupStep m x hm)
  exact hgen [] (by simp)

theorem sel_dedup (l : List BestAnswerEntry) (h : String) :
    (deduplicateBestAnswers l).find? (keyIs h) =
      runningBest none (l.filter (keyIs h)) := by
  have := sel_foldl l [] (by simp) h
  simpa [deduplicateBestAnswers] using this

/-- C3: batch deduplication keyed by fingerprint retains exactly one entry
per fingerprint — present in the output exactly when the fingerprint occurs
in the input — and that entry is the first input entry attaining the
maximal confidence for its fingerprint (everything before it is strictly
worse, everything after it no better); in particular, of three candidates
with one fingerprint and confidences [0.4, 0.9, 0.9], the second is kept,
not the third. -/
theorem dedup_keeps_first_max (l : List BestAnswerEntry) (h : String) :
    ((deduplicateBestAnswers l).filter (keyIs h)).length =
        min 1 (l.filter (keyIs h)).length ∧
      (∀ b : BestAnswerEntry, (deduplicateBestAnswers l).find? (keyIs h) = some b ↔
        ∃ l₁ l₂, l.filter (keyIs h) = l₁ ++ b :: l₂ ∧
          (∀ x ∈ l₁, x.confidence_score < b.confidence_score) ∧
          ∀ x ∈ l₂, x.confidence_score ≤ b.confidence_score) ∧
      deduplicateBestAnswers
          [⟨"f", some "a", mkRat 2 5⟩, ⟨"f", some "b", mkRat 9 10⟩,
            ⟨"f", some "c", mkRat 9 10⟩] =
        [⟨"f", some "b", mkRat 9 10⟩] := by
  refine ⟨?_, ?_, by decide⟩
  · rw [filter_length_of_nodup_keys h (deduplicateBestAnswers l) (nodup_keys_dedup l),
      sel_dedup]
    cases hf : l.filter (keyIs h) with
    | nil =>
      simp [runningBest]
    | cons x t =>
      rw [if_neg (show ¬ runningBest none (x :: t) = none from
        runningBest_some_ne_none t x), List.length_cons]
      omega
  · intro b
    rw [sel_dedup]
    cases hf : l.filter (keyIs h) with
    | nil =>
      constructor
      · intro hcon
        exact absurd hcon (by simp [runningBest])
      · rintro ⟨l₁, l₂, hsplit, -, -⟩
        exact absurd hsplit.symm (by simp)
    | cons x t =>
      rw [show runningBest none (x :: t) = runningBest (some x) t from rfl,
        runningBest_head_iff]

end QuizBank
